import Mathlib

/-!
Verification of the detection-decoding and NMS pipeline of
`src/utils/inference_pipeline.js` (YOLO pose estimation, onnxruntime-web).

The JavaScript numeric computations are embedded over `ℚ`.  The flat
prediction tensor is a function `Nat → ℚ` (the caller guarantees shape
consistency, as the code's precondition states).  Fuelled recursion is used
for the NMS while-loop; the fuel supplied by `applyNMS` always suffices.
-/

namespace YoloPose

/-- A pose keypoint as decoded by the pipeline: pixel coordinates and a
confidence value (`keypoints[kp]` in `inference_pipeline`). -/
structure Keypoint where
  x : ℚ
  y : ℚ
  score : ℚ
deriving DecidableEq, Inhabited

/-- Axis-aligned box in top-left `(x, y, width, height)` form, as stored in
`results[i].bbox`. -/
abbrev Box := ℚ × ℚ × ℚ × ℚ

/-- One decoded detection: an entry of `results` in `inference_pipeline`. -/
structure Detection where
  bbox : Box
  score : ℚ
  keypoints : List Keypoint
deriving DecidableEq, Inhabited

/-- `calculateIOU` from `inference_pipeline.js` (lines 101-125), verbatim:
intersection rectangle via max of left/top edges and min of right/bottom
edges, early `0.0` return when it is degenerate, otherwise
`intersection / (area1 + area2 - intersection)`. -/
def calculateIOU (box1 box2 : Box) : ℚ :=
  let x1 := box1.1
  let y1 := box1.2.1
  let w1 := box1.2.2.1
  let h1 := box1.2.2.2
  let x2 := box2.1
  let y2 := box2.2.1
  let w2 := box2.2.2.1
  let h2 := box2.2.2.2
  let box1_x2 := x1 + w1
  let box1_y2 := y1 + h1
  let box2_x2 := x2 + w2
  let box2_y2 := y2 + h2
  let intersect_x1 := max x1 x2
  let intersect_y1 := max y1 y2
  let intersect_x2 := min box1_x2 box2_x2
  let intersect_y2 := min box1_y2 box2_y2
  if intersect_x2 ≤ intersect_x1 ∨ intersect_y2 ≤ intersect_y1 then 0
  else
    let intersection := (intersect_x2 - intersect_x1) * (intersect_y2 - intersect_y1)
    intersection / (w1 * h1 + w2 * h2 - intersection)

/-- JavaScript's `%` on nonnegative operands: `a - b * Math.floor(a / b)`
(for the arguments used by `divStride` the JS truncated remainder coincides
with this floored remainder). -/
def jsMod (a b : ℚ) : ℚ := a - b * ⌊a / b⌋

/-- `divStride` from `inference_pipeline.js` (lines 235-247): each dimension
is rounded up to the next multiple of `stride` when its remainder is at
least `stride / 2`, otherwise rounded down. -/
def divStride (stride width height : ℚ) : ℚ × ℚ :=
  (if stride / 2 ≤ jsMod width stride
      then ((⌊width / stride⌋ : ℚ) + 1) * stride
      else (⌊width / stride⌋ : ℚ) * stride,
   if stride / 2 ≤ jsMod height stride
      then ((⌊height / stride⌋ : ℚ) + 1) * stride
      else (⌊height / stride⌋ : ℚ) * stride)

/-- The body of the decoding loop (lines 65-88) for a kept anchor `i`:
`pred` is the flat `output0.data` buffer, `num_predictions` is `N`,
`bbox_data k = pred k` and `keypoints_data k = pred (N * 5 + k)` mirror the
two `subarray` views. -/
def decodeAnchor (pred : Nat → ℚ) (num_predictions : Nat) (scaleX scaleY : ℚ)
    (i : Nat) : Detection :=
  { bbox := ((pred i - 1 / 2 * pred (i + num_predictions * 2)) * scaleX,
             (pred (i + num_predictions) - 1 / 2 * pred (i + num_predictions * 3)) * scaleY,
             pred (i + num_predictions * 2) * scaleX,
             pred (i + num_predictions * 3) * scaleY),
    score := pred (i + num_predictions * 4),
    keypoints := (List.range 17).map fun kp =>
      { x := pred (num_predictions * 5 + (kp * 3 * num_predictions + i)) * scaleX,
        y := pred (num_predictions * 5 + (kp * 3 * num_predictions + i + num_predictions)) * scaleY,
        score := pred (num_predictions * 5 + (kp * 3 * num_predictions + i + num_predictions * 2)) } }

/-- The decoding loop of `inference_pipeline` (lines 60-89): for each anchor
`i < N`, read the score at `i + N * 4` and skip when `score <= threshold`,
otherwise emit the decoded detection. -/
def decode (pred : Nat → ℚ) (num_predictions : Nat)
    (score_threshold scaleX scaleY : ℚ) : List Detection :=
  (List.range num_predictions).filterMap fun i =>
    if pred (i + num_predictions * 4) ≤ score_threshold then none
    else some (decodeAnchor pred num_predictions scaleX scaleY i)

/-- The `while` loop of `applyNMS` (lines 133-146), with fuel for
termination: pop the current head into `picked`, then retain among the rest
exactly the indices whose IoU with the current box is `<= iou_threshold`.
`applyNMS` supplies fuel equal to the initial list length, which always
suffices because each round consumes at least the head. -/
def nmsLoop (boxes : List Detection) (iou_threshold : ℚ) :
    Nat → List Nat → List Nat
  | _, [] => []
  | 0, _ :: _ => []
  | fuel + 1, current :: rest =>
      current :: nmsLoop boxes iou_threshold fuel
        (rest.filter fun idx =>
          decide (calculateIOU (boxes.getD current default).bbox
              (boxes.getD idx default).bbox ≤ iou_threshold))

/-- `applyNMS` from `inference_pipeline.js` (lines 127-149): build the index
list `0..scores.length`, sort it in descending score order (JS
`Array.prototype.sort` is stable; stable descending sort is modelled by
`insertionSort` with the reflexive descending relation), then run the greedy
suppression loop. -/
def applyNMS (boxes : List Detection) (scores : List ℚ) (iou_threshold : ℚ) :
    List Nat :=
  nmsLoop boxes iou_threshold scores.length
    (List.insertionSort (fun a b => scores.getD b 0 ≤ scores.getD a 0)
      (List.range scores.length))

/-- Line 96 of `inference_pipeline.js`:
`selected_indices.map((i) => results[i])`. -/
def filteredResults (dets : List Detection) (iou_threshold : ℚ) : List Detection :=
  (applyNMS dets (dets.map Detection.score) iou_threshold).map
    fun i => dets.getD i default

/-- Concrete four-detection input showing that greedy NMS is not monotone in
the IoU threshold. -/
def exDets : List Detection :=
  [{ bbox := (0, 1 / 2, 10, 3 / 2), score := 4, keypoints := [] },
   { bbox := (0, 0, 10, 1), score := 3, keypoints := [] },
   { bbox := (0, 0, 6, 1), score := 2, keypoints := [] },
   { bbox := (4, 0, 6, 1), score := 1, keypoints := [] }]

/-- A concrete flat prediction buffer used to instantiate the decoder
theorems: value `k` at index `k`. -/
def exPred : Nat → ℚ := fun k => (k : ℚ)

/-- Two concrete overlapping detections for NMS witnesses:
boxes `(10,10,50,50)` score `9/10` and `(15,15,50,50)` score `8/10`
(the end-to-end scenario of the spec). -/
def exPair : List Detection :=
  [{ bbox := (10, 10, 50, 50), score := 9 / 10, keypoints := [] },
   { bbox := (15, 15, 50, 50), score := 8 / 10, keypoints := [] }]

/-! ### Basic facts about `calculateIOU` -/

theorem calculateIOU_def (x1 y1 w1 h1 x2 y2 w2 h2 : ℚ) :
    calculateIOU (x1, y1, w1, h1) (x2, y2, w2, h2) =
      if min (x1 + w1) (x2 + w2) ≤ max x1 x2 ∨ min (y1 + h1) (y2 + h2) ≤ max y1 y2 then 0
      else
        (min (x1 + w1) (x2 + w2) - max x1 x2) * (min (y1 + h1) (y2 + h2) - max y1 y2) /
          (w1 * h1 + w2 * h2 -
            (min (x1 + w1) (x2 + w2) - max x1 x2) * (min (y1 + h1) (y2 + h2) - max y1 y2)) :=
  rfl

theorem calculateIOU_comm (a b : Box) : calculateIOU a b = calculateIOU b a := by
  obtain ⟨x1, y1, w1, h1⟩ := a
  obtain ⟨x2, y2, w2, h2⟩ := b
  rw [calculateIOU_def, calculateIOU_def, max_comm x2 x1, max_comm y2 y1,
    min_comm (x2 + w2) (x1 + w1), min_comm (y2 + h2) (y1 + h1)]
  split_ifs with hc
  · rfl
  · ring_nf

/-! ### Basic facts about `divStride` -/

theorem jsMod_nonneg {a b : ℚ} (hb : 0 < b) : 0 ≤ jsMod a b := by
  have h := Int.floor_le (a / b)
  have : (⌊a / b⌋ : ℚ) * b ≤ a / b * b := by
    exact mul_le_mul_of_nonneg_right h (le_of_lt hb)
  rw [div_mul_cancel₀ _ (ne_of_gt hb)] at this
  unfold jsMod
  linarith [this]

theorem jsMod_le {a b : ℚ} (ha : 0 ≤ a) (hb : 0 < b) : jsMod a b ≤ a := by
  have h0 : (0 : ℚ) ≤ ⌊a / b⌋ := by
    exact_mod_cast Int.floor_nonneg.mpr (div_nonneg ha (le_of_lt hb))
  unfold jsMod
  nlinarith

theorem floor_div_nonneg {a b : ℚ} (ha : 0 ≤ a) (hb : 0 < b) : 0 ≤ ⌊a / b⌋ :=
  Int.floor_nonneg.mpr (div_nonneg ha (le_of_lt hb))

/-- Behaviour of one rounded dimension of `divStride`: it is a nonnegative
integer multiple of the stride, and it is positive exactly when the input
dimension is at least half the stride. -/
theorem stride_round_spec (s d : ℚ) (hs : 0 < s) (hd : 0 < d) :
    (∃ k : ℤ, 0 ≤ k ∧
        (if s / 2 ≤ jsMod d s then ((⌊d / s⌋ : ℚ) + 1) * s else ((⌊d / s⌋ : ℚ)) * s) =
          (k : ℚ) * s) ∧
    ((0 < if s / 2 ≤ jsMod d s then ((⌊d / s⌋ : ℚ) + 1) * s else ((⌊d / s⌋ : ℚ)) * s) ↔
      s / 2 ≤ d) := by
  have hfl : (0 : ℚ) ≤ (⌊d / s⌋ : ℚ) := by exact_mod_cast floor_div_nonneg hd.le hs
  constructor
  · split_ifs with hc
    · exact ⟨⌊d / s⌋ + 1, by positivity, by push_cast; ring⟩
    · exact ⟨⌊d / s⌋, floor_div_nonneg hd.le hs, rfl⟩
  · split_ifs with hc
    · constructor
      · intro _
        exact le_trans hc (jsMod_le hd.le hs)
      · intro _
        have : (0 : ℚ) < (⌊d / s⌋ : ℚ) + 1 := by linarith
        positivity
    · constructor
      · intro hpos
        have h1 : (0 : ℚ) < (⌊d / s⌋ : ℚ) := by
          by_contra hne
          push_neg at hne
          have : (⌊d / s⌋ : ℚ) = 0 := le_antisymm hne hfl
          rw [this] at hpos
          simp at hpos
        have h1' : (1 : ℚ) ≤ (⌊d / s⌋ : ℚ) := by
          have : (1 : ℤ) ≤ ⌊d / s⌋ := by exact_mod_cast h1
          exact_mod_cast this
        have hds : s ≤ d := by
          have := Int.floor_le (d / s)
          have h2 : (1 : ℚ) ≤ d / s := le_trans h1' this
          calc s = 1 * s := (one_mul s).symm
          _ ≤ d / s * s := mul_le_mul_of_nonneg_right h2 hs.le
          _ = d := div_mul_cancel₀ _ (ne_of_gt hs)
        linarith
      · intro hhalf
        have h1 : (1 : ℤ) ≤ ⌊d / s⌋ := by
          by_contra hne
          push_neg at hne
          have hz : ⌊d / s⌋ = 0 := le_antisymm (by omega) (floor_div_nonneg hd.le hs)
          have : jsMod d s = d := by
            unfold jsMod
            rw [hz]
            ring
          rw [this] at hc
          exact hc hhalf
        have h1' : (1 : ℚ) ≤ (⌊d / s⌋ : ℚ) := by exact_mod_cast h1
        nlinarith

/-! ### Facts about the NMS loop -/

theorem nmsLoop_nil (boxes : List Detection) (t : ℚ) (fuel : Nat) :
    nmsLoop boxes t fuel [] = [] := by
  cases fuel <;> rfl

theorem nmsLoop_cons (boxes : List Detection) (t : ℚ) (fuel current : Nat)
    (rest : List Nat) :
    nmsLoop boxes t (fuel + 1) (current :: rest) =
      current :: nmsLoop boxes t fuel
        (rest.filter fun idx =>
          decide (calculateIOU (boxes.getD current default).bbox
              (boxes.getD idx default).bbox ≤ t)) :=
  rfl

/-- The NMS loop returns a sublist of its input index list. -/
theorem nmsLoop_sublist (boxes : List Detection) (t : ℚ) :
    ∀ (fuel : Nat) (l : List Nat), List.Sublist (nmsLoop boxes t fuel l) l := by
  intro fuel
  induction fuel with
  | zero =>
    intro l
    cases l <;> simp [nmsLoop]
  | succ n ih =>
    intro l
    cases l with
    | nil => simp [nmsLoop_nil]
    | cons c rest =>
      rw [nmsLoop_cons]
      exact ((ih _).trans (List.filter_sublist _)).cons₂ c

/-- Along the NMS loop output, in pick order, every later pick has IoU at
most the threshold with every earlier pick. -/
theorem nmsLoop_pairwise_iou (boxes : List Detection) (t : ℚ) :
    ∀ (fuel : Nat) (l : List Nat),
      (nmsLoop boxes t fuel l).Pairwise fun a b =>
        calculateIOU (boxes.getD a default).bbox (boxes.getD b default).bbox ≤ t := by
  intro fuel
  induction fuel with
  | zero =>
    intro l
    cases l <;> simp [nmsLoop]
  | succ n ih =>
    intro l
    cases l with
    | nil => simp [nmsLoop_nil]
    | cons c rest =>
      rw [nmsLoop_cons]
      refine List.Pairwise.cons ?_ (ih _)
      intro b hb
      have hb' := (nmsLoop_sublist boxes t n _).subset hb
      have := List.of_mem_filter hb'
      simpa using this

/-- If all pairwise IoUs in the input are below the threshold, the NMS loop
keeps everything (given sufficient fuel). -/
theorem nmsLoop_eq_self (boxes : List Detection) (t : ℚ) :
    ∀ (fuel : Nat) (l : List Nat), l.length ≤ fuel →
      (l.Pairwise fun a b =>
        calculateIOU (boxes.getD a default).bbox (boxes.getD b default).bbox ≤ t) →
      nmsLoop boxes t fuel l = l := by
  intro fuel
  induction fuel with
  | zero =>
    intro l hl _
    cases l with
    | nil => simp [nmsLoop_nil]
    | cons c rest => simp at hl
  | succ n ih =>
    intro l hl hp
    cases l with
    | nil => simp [nmsLoop_nil]
    | cons c rest =>
      rw [List.pairwise_cons] at hp
      rw [nmsLoop_cons]
      have hfil : (rest.filter fun idx =>
          decide (calculateIOU (boxes.getD c default).bbox
              (boxes.getD idx default).bbox ≤ t)) = rest := by
        apply List.filter_eq_self.mpr
        intro a ha
        simpa using hp.1 a ha
      rw [hfil, ih rest (by simpa using Nat.le_of_succ_le_succ (by simpa using hl)) hp.2]

/-- Completeness of greedy suppression: an input index that is not kept was
rejected on account of some kept index that precedes it in the sorted order
(relation `R`) and overlaps it strictly above the threshold. -/
theorem nmsLoop_reject (boxes : List Detection) (t : ℚ) {R : Nat → Nat → Prop} :
    ∀ (fuel : Nat) (l : List Nat), l.length ≤ fuel → l.Pairwise R →
      ∀ j ∈ l, j ∉ nmsLoop boxes t fuel l →
        ∃ c ∈ nmsLoop boxes t fuel l, R c j ∧
          t < calculateIOU (boxes.getD c default).bbox (boxes.getD j default).bbox := by
  intro fuel
  induction fuel with
  | zero =>
    intro l hl _ j hj _
    cases l with
    | nil => simp at hj
    | cons c rest => simp at hl
  | succ n ih =>
    intro l hl hp j hj hnj
    cases l with
    | nil => simp at hj
    | cons c rest =>
      rw [nmsLoop_cons] at hnj ⊢
      rw [List.pairwise_cons] at hp
      rcases List.mem_cons.mp hj with rfl | hjr
      · exact absurd (List.mem_cons_self _ _) hnj
      · have hrest_le : rest.length ≤ n := Nat.le_of_succ_le_succ (by simpa using hl)
        by_cases hjf : j ∈ rest.filter fun idx =>
            decide (calculateIOU (boxes.getD c default).bbox
                (boxes.getD idx default).bbox ≤ t)
        · have hnj' : j ∉ nmsLoop boxes t n (rest.filter fun idx =>
              decide (calculateIOU (boxes.getD c default).bbox
                  (boxes.getD idx default).bbox ≤ t)) :=
            fun hmem => hnj (List.mem_cons_of_mem _ hmem)
          obtain ⟨c', hc', hR, hiou⟩ :=
            ih _ (le_trans (List.length_filter_le _ _) hrest_le)
              (List.Pairwise.sublist (List.filter_sublist _) hp.2) j hjf hnj'
          exact ⟨c', List.mem_cons_of_mem _ hc', hR, hiou⟩
        · have hgt : ¬ calculateIOU (boxes.getD c default).bbox
              (boxes.getD j default).bbox ≤ t := by
            intro hle
            exact hjf (List.mem_filter.mpr ⟨hjr, by simpa using hle⟩)
          exact ⟨c, List.mem_cons_self _ _, hp.1 j hjr, not_le.mp hgt⟩

/-! ### Facts about the sorted index list and `applyNMS` -/

/-- The sorted index list of `applyNMS` is pairwise descending in scores. -/
theorem sortedIdx_pairwise (scores : List ℚ) :
    (List.insertionSort (fun a b => scores.getD b 0 ≤ scores.getD a 0)
        (List.range scores.length)).Pairwise
      fun a b => scores.getD b 0 ≤ scores.getD a 0 := by
  haveI : IsTotal Nat fun a b => scores.getD b 0 ≤ scores.getD a 0 :=
    ⟨fun a b => le_total _ _⟩
  haveI : IsTrans Nat fun a b => scores.getD b 0 ≤ scores.getD a 0 :=
    ⟨fun _ _ _ h1 h2 => le_trans h2 h1⟩
  exact List.sorted_insertionSort _ _

/-- Every index returned by `applyNMS` addresses an input entry. -/
theorem applyNMS_mem_lt (boxes : List Detection) (scores : List ℚ) (t : ℚ) :
    ∀ i ∈ applyNMS boxes scores t, i < scores.length := by
  intro i hi
  unfold applyNMS at hi
  have h1 := (nmsLoop_sublist boxes t scores.length _).subset hi
  have h2 := (List.perm_insertionSort
    (fun a b : Nat => scores.getD b 0 ≤ scores.getD a 0)
    (List.range scores.length)).subset h1
  exact List.mem_range.mp h2

/-- `applyNMS` returns no duplicate indices. -/
theorem applyNMS_nodup (boxes : List Detection) (scores : List ℚ) (t : ℚ) :
    (applyNMS boxes scores t).Nodup := by
  unfold applyNMS
  exact List.Nodup.sublist (nmsLoop_sublist boxes t scores.length _)
    ((List.perm_insertionSort (fun a b : Nat => scores.getD b 0 ≤ scores.getD a 0)
      (List.range scores.length)).nodup_iff.mpr (List.nodup_range _))

/-- `applyNMS` output is pairwise below the IoU threshold, in pick order. -/
theorem applyNMS_pairwise_iou (boxes : List Detection) (scores : List ℚ) (t : ℚ) :
    (applyNMS boxes scores t).Pairwise fun a b =>
      calculateIOU (boxes.getD a default).bbox (boxes.getD b default).bbox ≤ t := by
  unfold applyNMS
  exact nmsLoop_pairwise_iou boxes t scores.length _

/-- `applyNMS` output is in descending score order. -/
theorem applyNMS_pairwise_scores (boxes : List Detection) (scores : List ℚ) (t : ℚ) :
    (applyNMS boxes scores t).Pairwise fun a b => scores.getD b 0 ≤ scores.getD a 0 := by
  unfold applyNMS
  exact List.Pairwise.sublist (nmsLoop_sublist boxes t scores.length _)
    (sortedIdx_pairwise scores)

/-- Completeness at the `applyNMS` level: any input index that is not kept
is suppressed by a kept index of at least its score with IoU above the
threshold. -/
theorem applyNMS_reject (boxes : List Detection) (scores : List ℚ) (t : ℚ) :
    ∀ j < scores.length, j ∉ applyNMS boxes scores t →
      ∃ c ∈ applyNMS boxes scores t, scores.getD j 0 ≤ scores.getD c 0 ∧
        t < calculateIOU (boxes.getD c default).bbox (boxes.getD j default).bbox := by
  intro j hj hnj
  unfold applyNMS at hnj ⊢
  have hlen : (List.insertionSort (fun a b : Nat => scores.getD b 0 ≤ scores.getD a 0)
      (List.range scores.length)).length ≤ scores.length := by
    rw [(List.perm_insertionSort
      (fun a b : Nat => scores.getD b 0 ≤ scores.getD a 0)
      (List.range scores.length)).length_eq, List.length_range]
  have hjmem : j ∈ List.insertionSort (fun a b : Nat => scores.getD b 0 ≤ scores.getD a 0)
      (List.range scores.length) :=
    (List.perm_insertionSort (fun a b : Nat => scores.getD b 0 ≤ scores.getD a 0)
      (List.range scores.length)).mem_iff.mpr (List.mem_range.mpr hj)
  exact nmsLoop_reject boxes t _ _ hlen (sortedIdx_pairwise scores) j hjmem hnj

/-- Bridging the score list passed to `applyNMS` (`results.map(r => r.score)`)
with direct detection indexing. -/
theorem score_getD (dets : List Detection) {i : Nat} (h : i < dets.length) :
    (dets.map Detection.score).getD i 0 = (dets.getD i default).score := by
  rw [List.getD_eq_getElem _ _ (by simpa using h), List.getD_eq_getElem _ _ h,
    List.getElem_map]

/-- A pairwise property of a list transfers to index pairs drawn from
`range`. -/
theorem pairwise_range_getD {α : Type} (xs : List α) (d : α) (P : α → α → Prop)
    (h : xs.Pairwise P) :
    (List.range xs.length).Pairwise fun a b => P (xs.getD a d) (xs.getD b d) := by
  rw [List.pairwise_iff_getElem] at h ⊢
  intro i j hi hj hij
  have hi' : i < xs.length := by simpa using hi
  have hj' : j < xs.length := by simpa using hj
  simp only [List.getElem_range]
  rw [List.getD_eq_getElem _ _ hi', List.getD_eq_getElem _ _ hj']
  exact h i j hi' hj' hij

/-- Evaluation of `applyNMS` on the two overlapping end-to-end boxes at
threshold `1/2`: their IoU is `81/119 ≈ 0.68 > 0.5`, so only the
higher-scored box survives. -/
theorem exPair_applyNMS_half :
    applyNMS exPair (exPair.map Detection.score) (1 / 2) = [0] := by
  norm_num [applyNMS, nmsLoop, List.insertionSort, List.orderedInsert, calculateIOU,
    exPair, List.range_succ]

/-- Evaluation of the four-box example at threshold `1/2`: the second box
suppresses the two half-boxes. -/
theorem exDets_applyNMS_half :
    applyNMS exDets (exDets.map Detection.score) (1 / 2) = [0, 1] := by
  norm_num [applyNMS, nmsLoop, List.insertionSort, List.orderedInsert, calculateIOU,
    exDets, List.range_succ]

/-- Evaluation of the four-box example at the smaller threshold `1/5`: the
second box is now suppressed by the first, letting both half-boxes
survive. -/
theorem exDets_applyNMS_fifth :
    applyNMS exDets (exDets.map Detection.score) (1 / 5) = [0, 2, 3] := by
  norm_num [applyNMS, nmsLoop, List.insertionSort, List.orderedInsert, calculateIOU,
    exDets, List.range_succ]

/-! ### Claims C5 and C8: IoU safety and algebraic properties -/

/-- C5: for boxes with nonnegative width and height the IoU computation is
total: when the intersection rectangle (max of left/top edges, min of
right/bottom edges) has non-positive width or height the result is `0`;
otherwise the divisor `area1 + area2 - intersection` is strictly positive,
so the division is never by zero; and a zero-area box yields IoU `0`
against every box (in both argument orders). -/
theorem calculateIOU_total (x1 y1 w1 h1 x2 y2 w2 h2 : ℚ)
    (hw1 : 0 ≤ w1) (hh1 : 0 ≤ h1) (hw2 : 0 ≤ w2) (hh2 : 0 ≤ h2) :
    (min (x1 + w1) (x2 + w2) ≤ max x1 x2 ∨ min (y1 + h1) (y2 + h2) ≤ max y1 y2 →
        calculateIOU (x1, y1, w1, h1) (x2, y2, w2, h2) = 0) ∧
    (¬(min (x1 + w1) (x2 + w2) ≤ max x1 x2 ∨ min (y1 + h1) (y2 + h2) ≤ max y1 y2) →
        0 < w1 * h1 + w2 * h2 -
            (min (x1 + w1) (x2 + w2) - max x1 x2) *
              (min (y1 + h1) (y2 + h2) - max y1 y2)) ∧
    (w1 * h1 = 0 →
        calculateIOU (x1, y1, w1, h1) (x2, y2, w2, h2) = 0 ∧
        calculateIOU (x2, y2, w2, h2) (x1, y1, w1, h1) = 0) := by
  refine ⟨fun hdeg => ?_, fun hpos => ?_, fun hzero => ?_⟩
  · rw [calculateIOU_def, if_pos hdeg]
  · push_neg at hpos
    obtain ⟨hx, hy⟩ := hpos
    set iw := min (x1 + w1) (x2 + w2) - max x1 x2 with hiw
    set ih := min (y1 + h1) (y2 + h2) - max y1 y2 with hih
    have hiw_pos : 0 < iw := by simp only [hiw]; linarith
    have hih_pos : 0 < ih := by simp only [hih]; linarith
    have hiw_w1 : iw ≤ w1 := by
      have h1' : min (x1 + w1) (x2 + w2) ≤ x1 + w1 := min_le_left _ _
      have h2' : x1 ≤ max x1 x2 := le_max_left _ _
      simp only [hiw]; linarith
    have hiw_w2 : iw ≤ w2 := by
      have h1' : min (x1 + w1) (x2 + w2) ≤ x2 + w2 := min_le_right _ _
      have h2' : x2 ≤ max x1 x2 := le_max_right _ _
      simp only [hiw]; linarith
    have hih_h1 : ih ≤ h1 := by
      have h1' : min (y1 + h1) (y2 + h2) ≤ y1 + h1 := min_le_left _ _
      have h2' : y1 ≤ max y1 y2 := le_max_left _ _
      simp only [hih]; linarith
    have hih_h2 : ih ≤ h2 := by
      have h1' : min (y1 + h1) (y2 + h2) ≤ y2 + h2 := min_le_right _ _
      have h2' : y2 ≤ max y1 y2 := le_max_right _ _
      simp only [hih]; linarith
    have hA1 : iw * ih ≤ w1 * h1 := mul_le_mul hiw_w1 hih_h1 hih_pos.le hw1
    have hA2 : iw * ih ≤ w2 * h2 := mul_le_mul hiw_w2 hih_h2 hih_pos.le hw2
    have hI : 0 < iw * ih := mul_pos hiw_pos hih_pos
    linarith
  · rcases mul_eq_zero.mp hzero with hw | hh
    · subst hw
      constructor
      · rw [calculateIOU_def, if_pos]
        left
        calc min (x1 + 0) (x2 + w2) ≤ x1 + 0 := min_le_left _ _
        _ = x1 := add_zero x1
        _ ≤ max x1 x2 := le_max_left _ _
      · rw [calculateIOU_def, if_pos]
        left
        calc min (x2 + w2) (x1 + 0) ≤ x1 + 0 := min_le_right _ _
        _ = x1 := add_zero x1
        _ ≤ max x2 x1 := le_max_right _ _
    · subst hh
      constructor
      · rw [calculateIOU_def, if_pos]
        right
        calc min (y1 + 0) (y2 + h2) ≤ y1 + 0 := min_le_left _ _
        _ = y1 := add_zero y1
        _ ≤ max y1 y2 := le_max_left _ _
      · rw [calculateIOU_def, if_pos]
        right
        calc min (y2 + h2) (y1 + 0) ≤ y1 + 0 := min_le_right _ _
        _ = y1 := add_zero y1
        _ ≤ max y2 y1 := le_max_right _ _

/-- C5 witness: the statement applied to the degenerate box `(0,0,0,5)`
against the unit box `(0,0,1,1)`. -/
theorem calculateIOU_total_witness :
    ((0 : ℚ) ≤ 0 ∧ (0 : ℚ) ≤ 5 ∧ (0 : ℚ) ≤ 1 ∧ (0 : ℚ) ≤ 1) ∧
    ((0 : ℚ) * 5 = 0) ∧
    calculateIOU ((0 : ℚ), 0, 0, 5) (0, 0, 1, 1) = 0 ∧
    calculateIOU ((0 : ℚ), 0, 1, 1) (0, 0, 0, 5) = 0 := by
  have h := (calculateIOU_total 0 0 0 5 0 0 1 1 (by norm_num) (by norm_num)
    (by norm_num) (by norm_num)).2.2 (by norm_num)
  exact ⟨⟨by norm_num, by norm_num, by norm_num, by norm_num⟩, by norm_num, h.1, h.2⟩

/-- C8: IoU is symmetric in its two boxes, and on any non-degenerate box
(positive width and height) the IoU of a box with itself equals `1`. -/
theorem calculateIOU_symm_refl (a b : Box) :
    calculateIOU a b = calculateIOU b a ∧
    (0 < a.2.2.1 → 0 < a.2.2.2 → calculateIOU a a = 1) := by
  constructor
  · exact calculateIOU_comm a b
  · obtain ⟨x, y, w, h⟩ := a
    intro hw hh
    simp only at hw hh
    rw [calculateIOU_def, if_neg]
    · simp only [min_self, max_self]
      rw [show x + w - x = w from by ring, show y + h - y = h from by ring,
        show w * h + w * h - w * h = w * h from by ring]
      exact div_self (ne_of_gt (mul_pos hw hh))
    · push_neg
      simp only [min_self, max_self]
      constructor <;> linarith

/-- C8 witness: symmetry and reflexivity at the concrete boxes
`(10,10,50,50)` and `(15,15,50,50)`. -/
theorem calculateIOU_symm_refl_witness :
    calculateIOU ((10 : ℚ), 10, 50, 50) (15, 15, 50, 50) =
        calculateIOU ((15 : ℚ), 15, 50, 50) (10, 10, 50, 50) ∧
    ((0 : ℚ) < 50 ∧ (0 : ℚ) < 50) ∧
    calculateIOU ((10 : ℚ), 10, 50, 50) (10, 10, 50, 50) = 1 := by
  have h := calculateIOU_symm_refl ((10 : ℚ), 10, 50, 50) (15, 15, 50, 50)
  have h2 := calculateIOU_symm_refl ((10 : ℚ), 10, 50, 50) (10, 10, 50, 50)
  exact ⟨h.1, ⟨by norm_num, by norm_num⟩, h2.2 (by norm_num) (by norm_num)⟩

/-! ### Claim C3: greedy classic NMS -/

/-- C3: `applyNMS` implements greedy classic NMS — every returned index
addresses an input detection (the output never adds entries), the returned
indices are in selection order (scores non-increasing, highest first), and
any input index that is missing from the output was suppressed by a kept
index of at least its score whose box overlaps it strictly above the IoU
threshold. -/
theorem applyNMS_greedy (dets : List Detection) (t : ℚ) :
    (∀ i ∈ applyNMS dets (dets.map Detection.score) t, i < dets.length) ∧
    ((applyNMS dets (dets.map Detection.score) t).Pairwise fun a b =>
      (dets.getD b default).score ≤ (dets.getD a default).score) ∧
    (∀ j < dets.length, j ∉ applyNMS dets (dets.map Detection.score) t →
      ∃ c ∈ applyNMS dets (dets.map Detection.score) t,
        (dets.getD j default).score ≤ (dets.getD c default).score ∧
        t < calculateIOU (dets.getD c default).bbox (dets.getD j default).bbox) := by
  have hmem : ∀ i ∈ applyNMS dets (dets.map Detection.score) t, i < dets.length := by
    intro i hi
    have := applyNMS_mem_lt dets (dets.map Detection.score) t i hi
    rwa [List.length_map] at this
  refine ⟨hmem, ?_, ?_⟩
  · refine (applyNMS_pairwise_scores dets (dets.map Detection.score) t).imp_of_mem ?_
    intro a b ha hb hab
    rwa [score_getD dets (hmem a ha), score_getD dets (hmem b hb)] at hab
  · intro j hj hnj
    obtain ⟨c, hc, hs, hiou⟩ :=
      applyNMS_reject dets (dets.map Detection.score) t j (by rwa [List.length_map]) hnj
    exact ⟨c, hc, by rwa [score_getD dets hj, score_getD dets (hmem c hc)] at hs, hiou⟩

/-- C3 witness: on the two overlapping end-to-end boxes at threshold `1/2`,
index `1` is rejected and the theorem yields its suppressor. -/
theorem applyNMS_greedy_witness :
    ∃ c ∈ applyNMS exPair (exPair.map Detection.score) (1 / 2),
      (exPair.getD 1 default).score ≤ (exPair.getD c default).score ∧
      (1 : ℚ) / 2 < calculateIOU (exPair.getD c default).bbox
        (exPair.getD 1 default).bbox :=
  (applyNMS_greedy exPair (1 / 2)).2.2 1 (by norm_num [exPair])
    (by rw [exPair_applyNMS_half]; norm_num)

/-! ### Claim C10: NMS output invariant -/

/-- C10: the index list returned by `applyNMS` has no duplicates, every
index lies in `[0, length)`, and for any kept index `j` picked after a kept
index `i` the IoU of box `j` against box `i` is at most the threshold. -/
theorem applyNMS_invariant (dets : List Detection) (t : ℚ) :
    (applyNMS dets (dets.map Detection.score) t).Nodup ∧
    (∀ i ∈ applyNMS dets (dets.map Detection.score) t, i < dets.length) ∧
    ((applyNMS dets (dets.map Detection.score) t).Pairwise fun i j =>
      calculateIOU (dets.getD j default).bbox (dets.getD i default).bbox ≤ t) := by
  refine ⟨applyNMS_nodup _ _ _, ?_, ?_⟩
  · intro i hi
    have := applyNMS_mem_lt dets (dets.map Detection.score) t i hi
    rwa [List.length_map] at this
  · refine (applyNMS_pairwise_iou dets (dets.map Detection.score) t).imp ?_
    intro a b hab
    rwa [calculateIOU_comm] at hab

/-- C10 witness: the invariant instantiated on the end-to-end example,
checking the membership bound at the kept index `0`. -/
theorem applyNMS_invariant_witness :
    0 ∈ applyNMS exPair (exPair.map Detection.score) (1 / 2) ∧ 0 < exPair.length := by
  have hm : 0 ∈ applyNMS exPair (exPair.map Detection.score) (1 / 2) := by
    rw [exPair_applyNMS_half]
    norm_num
  exact ⟨hm, (applyNMS_invariant exPair (1 / 2)).2.1 0 hm⟩

/-! ### Claim C6: threshold monotonicity -/

/-- C6 counterexample: on the four-box input `exDets`, lowering the IoU
threshold from `1/2` to `1/5` increases the number of kept detections from
2 (`[0, 1]`) to 3 (`[0, 2, 3]`): at `1/2` box 1 survives the first round and
then suppresses boxes 2 and 3, while at `1/5` box 1 itself is suppressed by
box 0 and boxes 2 and 3 survive. -/
theorem applyNMS_not_monotone_cex :
    (1 : ℚ) / 5 ≤ 1 / 2 ∧
    ¬ (applyNMS exDets (exDets.map Detection.score) (1 / 5)).length ≤
        (applyNMS exDets (exDets.map Detection.score) (1 / 2)).length := by
  rw [exDets_applyNMS_fifth, exDets_applyNMS_half]
  norm_num

/-- Closed form of `applyNMS` on a two-detection input. -/
theorem applyNMS_pair (a b : Detection) (t : ℚ) :
    applyNMS [a, b] ([a, b].map Detection.score) t =
      if b.score ≤ a.score then
        if calculateIOU a.bbox b.bbox ≤ t then [0, 1] else [0]
      else
        if calculateIOU b.bbox a.bbox ≤ t then [1, 0] else [1] := by
  by_cases h1 : b.score ≤ a.score <;> by_cases h2 : calculateIOU a.bbox b.bbox ≤ t <;>
    by_cases h3 : calculateIOU b.bbox a.bbox ≤ t <;>
    simp [applyNMS, List.range_succ, List.insertionSort, List.orderedInsert,
      nmsLoop_cons, nmsLoop_nil, h1, h2, h3]

/-- C6 (amended): the monotonicity claim fails in general (see the
counterexample), but holds for inputs of at most two detections: with
`t1 ≤ t2`, the count kept at `t1` is at most the count kept at `t2`. -/
theorem applyNMS_monotone_small (dets : List Detection) (t1 t2 : ℚ)
    (hlen : dets.length ≤ 2) (ht : t1 ≤ t2) :
    (applyNMS dets (dets.map Detection.score) t1).length ≤
      (applyNMS dets (dets.map Detection.score) t2).length := by
  match dets, hlen with
  | [], _ => simp [applyNMS, nmsLoop_nil]
  | [a], _ =>
    simp [applyNMS, List.range_succ, List.insertionSort, List.orderedInsert,
      nmsLoop_cons, nmsLoop_nil]
  | [a, b], _ =>
    rw [applyNMS_pair, applyNMS_pair]
    split_ifs with h1 h2 h3 h4 h5 <;> simp_all <;> linarith

/-- C6 witness for the amended statement: the end-to-end pair at thresholds
`1/2 ≤ 7/10`. -/
theorem applyNMS_monotone_small_witness :
    exPair.length ≤ 2 ∧ (1 : ℚ) / 2 ≤ 7 / 10 ∧
    (applyNMS exPair (exPair.map Detection.score) (1 / 2)).length ≤
      (applyNMS exPair (exPair.map Detection.score) (7 / 10)).length :=
  ⟨by norm_num [exPair], by norm_num,
    applyNMS_monotone_small exPair (1 / 2) (7 / 10) (by norm_num [exPair]) (by norm_num)⟩

/-! ### Claims C1 and C2: the decoder -/

/-- A `filterMap` whose function skips on a condition is a `filter`
followed by a `map`. -/
theorem filterMap_skip_eq_filter_map {α β : Type} (p : α → Prop) [DecidablePred p]
    (f : α → β) (l : List α) :
    (l.filterMap fun i => if p i then none else some (f i)) =
      (l.filter fun i => decide ¬p i).map f := by
  induction l with
  | nil => rfl
  | cons a l ih =>
    by_cases h : p a <;> simp [List.filterMap_cons, List.filter_cons, h, ih]

/-- C1: the decoder emits exactly one detection per anchor whose score
(read at channel offset `i + N * 4`) strictly exceeds the threshold, none
for the others, in ascending anchor order; every emitted detection has
score above the threshold and exactly 17 keypoints. -/
theorem decode_score_filter (pred : Nat → ℚ) (N : Nat) (t scaleX scaleY : ℚ) :
    decode pred N t scaleX scaleY =
      ((List.range N).filter fun i => decide (t < pred (i + N * 4))).map
        (decodeAnchor pred N scaleX scaleY) ∧
    ∀ d ∈ decode pred N t scaleX scaleY, t < d.score ∧ d.keypoints.length = 17 := by
  have heq : decode pred N t scaleX scaleY =
      ((List.range N).filter fun i => decide (t < pred (i + N * 4))).map
        (decodeAnchor pred N scaleX scaleY) := by
    unfold decode
    rw [filterMap_skip_eq_filter_map (fun i => pred (i + N * 4) ≤ t)
      (decodeAnchor pred N scaleX scaleY) (List.range N)]
    congr 1
    apply List.filter_congr
    intro i _
    simp [decide_eq_decide, not_le]
  refine ⟨heq, ?_⟩
  intro d hd
  rw [heq] at hd
  obtain ⟨i, hi, rfl⟩ := List.mem_map.mp hd
  have hscore := List.of_mem_filter hi
  constructor
  · simpa [decodeAnchor] using hscore
  · simp [decodeAnchor]

/-- C1 witness: a one-anchor tensor whose score channel reads `4 > 3`; the
emitted detection is in the output, has score above the threshold and 17
keypoints. -/
theorem decode_score_filter_witness :
    decodeAnchor exPred 1 2 3 0 ∈ decode exPred 1 3 2 3 ∧
    (3 : ℚ) < (decodeAnchor exPred 1 2 3 0).score ∧
    (decodeAnchor exPred 1 2 3 0).keypoints.length = 17 := by
  have hm : decodeAnchor exPred 1 2 3 0 ∈ decode exPred 1 3 2 3 := by
    norm_num [decode, List.range_succ, exPred, List.filterMap_cons]
  have h := (decode_score_filter exPred 1 3 2 3).2 _ hm
  exact ⟨hm, h.1, h.2⟩

/-- C2: the detection emitted for a kept anchor `i` carries the box
`((cx - w/2) * scaleX, (cy - h/2) * scaleY, w * scaleX, h * scaleY)` read
from channels `0..3`, the raw score, and 17 keypoints whose x/y are scaled
by the respective ratios and whose score is passed through unscaled, read
at the channel offsets `5N + 3N*kp + i`, `+N`, `+2N` determined by the
keypoint index, the anchor index and `N`. -/
theorem decode_coordinates (pred : Nat → ℚ) (N : Nat) (t scaleX scaleY : ℚ)
    (i : Nat) (hi : i < N) (hs : t < pred (i + N * 4)) :
    decodeAnchor pred N scaleX scaleY i ∈ decode pred N t scaleX scaleY ∧
    (decodeAnchor pred N scaleX scaleY i).bbox =
      ((pred i - 1 / 2 * pred (i + N * 2)) * scaleX,
       (pred (i + N) - 1 / 2 * pred (i + N * 3)) * scaleY,
       pred (i + N * 2) * scaleX,
       pred (i + N * 3) * scaleY) ∧
    (decodeAnchor pred N scaleX scaleY i).score = pred (i + N * 4) ∧
    ∀ kp < 17,
      (decodeAnchor pred N scaleX scaleY i).keypoints.getD kp default =
        { x := pred (5 * N + 3 * N * kp + i) * scaleX,
          y := pred (5 * N + 3 * N * kp + i + N) * scaleY,
          score := pred (5 * N + 3 * N * kp + i + 2 * N) } := by
  refine ⟨?_, rfl, rfl, ?_⟩
  · unfold decode
    exact List.mem_filterMap.mpr
      ⟨i, List.mem_range.mpr hi, by rw [if_neg (not_le.mpr hs)]⟩
  · intro kp hkp
    simp only [decodeAnchor]
    have hlen : kp < ((List.range 17).map fun kp => (⟨pred (N * 5 + (kp * 3 * N + i)) * scaleX,
        pred (N * 5 + (kp * 3 * N + i + N)) * scaleY,
        pred (N * 5 + (kp * 3 * N + i + N * 2))⟩ : Keypoint)).length := by
      simpa using hkp
    rw [List.getD_eq_getElem _ _ hlen]
    simp only [List.getElem_map, List.getElem_range]
    rw [show N * 5 + (kp * 3 * N + i) = 5 * N + 3 * N * kp + i from by ring,
      show N * 5 + (kp * 3 * N + i + N) = 5 * N + 3 * N * kp + i + N from by ring,
      show N * 5 + (kp * 3 * N + i + N * 2) = 5 * N + 3 * N * kp + i + 2 * N from by ring]

/-- C2 witness: the box formula, raw score and keypoint channel layout
instantiated on the one-anchor tensor with ratios `2` and `3`. -/
theorem decode_coordinates_witness :
    (0 < 1 ∧ (3 : ℚ) < exPred (0 + 1 * 4)) ∧
    (decodeAnchor exPred 1 2 3 0 ∈ decode exPred 1 3 2 3 ∧
     (decodeAnchor exPred 1 2 3 0).bbox =
       ((exPred 0 - 1 / 2 * exPred (0 + 1 * 2)) * 2,
        (exPred (0 + 1) - 1 / 2 * exPred (0 + 1 * 3)) * 3,
        exPred (0 + 1 * 2) * 2,
        exPred (0 + 1 * 3) * 3) ∧
     (decodeAnchor exPred 1 2 3 0).score = exPred (0 + 1 * 4) ∧
     ∀ kp < 17,
       (decodeAnchor exPred 1 2 3 0).keypoints.getD kp default =
         { x := exPred (5 * 1 + 3 * 1 * kp + 0) * 2,
           y := exPred (5 * 1 + 3 * 1 * kp + 0 + 1) * 3,
           score := exPred (5 * 1 + 3 * 1 * kp + 0 + 2 * 1) }) :=
  ⟨⟨by norm_num, by norm_num [exPred]⟩,
    decode_coordinates exPred 1 3 2 3 0 (by norm_num) (by norm_num [exPred])⟩

/-! ### Claim C7: NMS idempotence -/

/-- C7: gathering the detections selected by a first NMS pass (in selection
order, as `inference_pipeline` does on line 96) and running `applyNMS` again
with the same threshold keeps every element: the second pass returns
`[0, 1, ..., m-1]`, the whole index range of the filtered list. -/
theorem applyNMS_idempotent (dets : List Detection) (t : ℚ) :
    applyNMS (filteredResults dets t) ((filteredResults dets t).map Detection.score) t =
      List.range (filteredResults dets t).length := by
  have hmem : ∀ i ∈ applyNMS dets (dets.map Detection.score) t, i < dets.length := by
    intro i hi
    have := applyNMS_mem_lt dets (dets.map Detection.score) t i hi
    rwa [List.length_map] at this
  have hg : filteredResults dets t =
      (applyNMS dets (dets.map Detection.score) t).map fun i => dets.getD i default := rfl
  have hA : (filteredResults dets t).Pairwise fun a b : Detection => b.score ≤ a.score := by
    rw [hg, List.pairwise_map]
    refine (applyNMS_pairwise_scores dets (dets.map Detection.score) t).imp_of_mem ?_
    intro a b ha hb hab
    rwa [score_getD dets (hmem a ha), score_getD dets (hmem b hb)] at hab
  have hB : (filteredResults dets t).Pairwise
      fun a b : Detection => calculateIOU a.bbox b.bbox ≤ t := by
    rw [hg, List.pairwise_map]
    exact applyNMS_pairwise_iou dets (dets.map Detection.score) t
  have hRange1 : (List.range (filteredResults dets t).length).Pairwise fun a b =>
      ((filteredResults dets t).map Detection.score).getD b 0 ≤
        ((filteredResults dets t).map Detection.score).getD a 0 := by
    refine (pairwise_range_getD (filteredResults dets t) default
      (fun a b => b.score ≤ a.score) hA).imp_of_mem ?_
    intro a b ha hb hab
    rw [score_getD (filteredResults dets t) (List.mem_range.mp ha),
      score_getD (filteredResults dets t) (List.mem_range.mp hb)]
    exact hab
  have hRange2 : (List.range (filteredResults dets t).length).Pairwise fun a b =>
      calculateIOU ((filteredResults dets t).getD a default).bbox
        ((filteredResults dets t).getD b default).bbox ≤ t :=
    pairwise_range_getD (filteredResults dets t) default
      (fun a b => calculateIOU a.bbox b.bbox ≤ t) hB
  have hsorted_eq : List.insertionSort
      (fun a b => ((filteredResults dets t).map Detection.score).getD b 0 ≤
        ((filteredResults dets t).map Detection.score).getD a 0)
      (List.range ((filteredResults dets t).map Detection.score).length) =
      List.range (filteredResults dets t).length := by
    rw [List.length_map]
    exact List.Sorted.insertionSort_eq hRange1
  unfold applyNMS
  rw [hsorted_eq]
  apply nmsLoop_eq_self
  · simp [List.length_range]
  · exact hRange2

/-! ### Claim C4: stride clamp -/

/-- C4 counterexample: the claim "`align_to_stride` never returns zero for
positive input" is false — for stride 32 and width 10 (both positive, height
100 positive) the returned width is `0`, because the code rounds `10` down
to `Math.floor(10/32)*32 = 0` and contains no clamp to a minimum of
`stride`. -/
theorem divStride_zero_cex :
    (0 : ℚ) < 32 ∧ (0 : ℚ) < 10 ∧ (0 : ℚ) < 100 ∧ (divStride 32 10 100).1 = 0 := by
  refine ⟨by norm_num, by norm_num, by norm_num, ?_⟩
  have h1 : ⌊(10 : ℚ) / 32⌋ = 0 := by
    rw [Int.floor_eq_iff] <;> norm_num
  simp only [divStride, jsMod, h1]
  norm_num

/-- C4 (amended): for every `stride > 0`, `width > 0`, `height > 0`, each
dimension returned by `divStride` is a nonnegative integer multiple of the
stride, and it is positive exactly when the corresponding input dimension is
at least `stride / 2`; inputs below half the stride yield `0` (there is no
clamp at a minimum of `stride`). -/
theorem divStride_amended (s w h : ℚ) (hs : 0 < s) (hw : 0 < w) (hh : 0 < h) :
    (∃ kw : ℤ, 0 ≤ kw ∧ (divStride s w h).1 = (kw : ℚ) * s) ∧
    (∃ kh : ℤ, 0 ≤ kh ∧ (divStride s w h).2 = (kh : ℚ) * s) ∧
    (0 < (divStride s w h).1 ↔ s / 2 ≤ w) ∧
    (0 < (divStride s w h).2 ↔ s / 2 ≤ h) := by
  obtain ⟨hw1, hw2⟩ := stride_round_spec s w hs hw
  obtain ⟨hh1, hh2⟩ := stride_round_spec s h hs hh
  exact ⟨hw1, hh1, hw2, hh2⟩

/-- C4 witness: the amended statement applied to stride 32, width 70,
height 100. -/
theorem divStride_amended_witness :
    ((0 : ℚ) < 32 ∧ (0 : ℚ) < 70 ∧ (0 : ℚ) < 100) ∧
    ((∃ kw : ℤ, 0 ≤ kw ∧ (divStride 32 70 100).1 = (kw : ℚ) * 32) ∧
     (∃ kh : ℤ, 0 ≤ kh ∧ (divStride 32 70 100).2 = (kh : ℚ) * 32) ∧
     (0 < (divStride 32 70 100).1 ↔ (32 : ℚ) / 2 ≤ 70) ∧
     (0 < (divStride 32 70 100).2 ↔ (32 : ℚ) / 2 ≤ 100)) :=
  ⟨⟨by norm_num, by norm_num, by norm_num⟩,
    divStride_amended 32 70 100 (by norm_num) (by norm_num) (by norm_num)⟩

/-! ### Claim C9: stride rounding rule -/

/-- C9: each dimension is rounded to a multiple of the stride — the rounded
value sits between the enclosing multiples `k*s ≤ d < (k+1)*s` and the code
picks the upper one exactly when the remainder `d - k*s` is at least half
the stride; in particular `divStride 32 70 100 = (64, 96)` and
`divStride 32 80 100 = (96, 96)`. -/
theorem divStride_rounding (s w h : ℚ) (hs : 0 < s) :
    (∃ k : ℤ, (k : ℚ) * s ≤ w ∧ w < ((k : ℚ) + 1) * s ∧
        (divStride s w h).1 =
          (if s / 2 ≤ w - (k : ℚ) * s then ((k : ℚ) + 1) * s else (k : ℚ) * s)) ∧
    (∃ k : ℤ, (k : ℚ) * s ≤ h ∧ h < ((k : ℚ) + 1) * s ∧
        (divStride s w h).2 =
          (if s / 2 ≤ h - (k : ℚ) * s then ((k : ℚ) + 1) * s else (k : ℚ) * s)) ∧
    divStride 32 70 100 = (64, 96) ∧ divStride 32 80 100 = (96, 96) := by
  have key : ∀ d : ℚ, (⌊d / s⌋ : ℚ) * s ≤ d ∧ d < ((⌊d / s⌋ : ℚ) + 1) * s ∧
      jsMod d s = d - (⌊d / s⌋ : ℚ) * s := by
    intro d
    refine ⟨?_, ?_, by unfold jsMod; ring⟩
    · have := Int.floor_le (d / s)
      calc (⌊d / s⌋ : ℚ) * s ≤ d / s * s := mul_le_mul_of_nonneg_right this hs.le
      _ = d := div_mul_cancel₀ _ (ne_of_gt hs)
    · have := Int.lt_floor_add_one (d / s)
      calc d = d / s * s := (div_mul_cancel₀ _ (ne_of_gt hs)).symm
      _ < ((⌊d / s⌋ : ℚ) + 1) * s := by
          exact mul_lt_mul_of_pos_right (by exact_mod_cast this) hs
  have h70 : ⌊(70 : ℚ) / 32⌋ = 2 := by rw [Int.floor_eq_iff] <;> norm_num
  have h80 : ⌊(80 : ℚ) / 32⌋ = 2 := by rw [Int.floor_eq_iff] <;> norm_num
  have h100 : ⌊(100 : ℚ) / 32⌋ = 3 := by rw [Int.floor_eq_iff] <;> norm_num
  refine ⟨⟨⌊w / s⌋, (key w).1, (key w).2.1, ?_⟩, ⟨⌊h / s⌋, (key h).1, (key h).2.1, ?_⟩, ?_, ?_⟩
  · simp only [divStride, (key w).2.2]
  · simp only [divStride, (key h).2.2]
  · simp only [divStride, jsMod, h70, h100]
    norm_num
  · simp only [divStride, jsMod, h80, h100]
    norm_num

/-- C9 witness: the rounding rule applied at stride 32, width 70,
height 100. -/
theorem divStride_rounding_witness :
    (0 : ℚ) < 32 ∧
    ((∃ k : ℤ, (k : ℚ) * 32 ≤ 70 ∧ (70 : ℚ) < ((k : ℚ) + 1) * 32 ∧
        (divStride 32 70 100).1 =
          (if (32 : ℚ) / 2 ≤ 70 - (k : ℚ) * 32 then ((k : ℚ) + 1) * 32 else (k : ℚ) * 32)) ∧
     (∃ k : ℤ, (k : ℚ) * 32 ≤ 100 ∧ (100 : ℚ) < ((k : ℚ) + 1) * 32 ∧
        (divStride 32 70 100).2 =
          (if (32 : ℚ) / 2 ≤ 100 - (k : ℚ) * 32 then ((k : ℚ) + 1) * 32 else (k : ℚ) * 32)) ∧
     divStride 32 70 100 = (64, 96) ∧ divStride 32 80 100 = (96, 96)) :=
  ⟨by norm_num, divStride_rounding 32 70 100 (by norm_num)⟩

end YoloPose
